import Mathlib

/-!
Verification of the Hangman game engine (`hangman1.py`).

Strings are modelled as `List Char`; Python's `str.lower`, `str.isalpha`
and whitespace splitting are embedded below (restricted to the basic
latin range, matching Lean's `Char.toLower` / `Char.isAlpha`).
Randomness is modelled by passing the drawn indices explicitly:
`random.choice(seq)` becomes an index reduced modulo the pool length,
and raises (`IndexError`, abstracted as `NoCandidatesAvailable`) exactly
when the pool is empty, as in CPython.
-/

namespace Hangman

/-- Python `str.lower()` over a list of characters. -/
def pyLower (s : List Char) : List Char := s.map Char.toLower

/-- Python `str.isalpha()`: non-empty and every character alphabetic. -/
def str_isalpha (s : List Char) : Bool := !s.isEmpty && s.all Char.isAlpha

/-- `MAX_WORD_LENGTH = 8` from the source. -/
def MAX_WORD_LENGTH : Nat := 8

/-- `DEFAULT_MAX_LIVES = 6` from the source. -/
def DEFAULT_MAX_LIVES : Int := 6

/-- `load_word_lists()`: filters/lowercases the raw corpus word lists.
Takes the raw NLTK pools as inputs (they are external data). -/
def load_word_lists (rawWords rawBrown : List (List Char)) :
    List (List Char) × List (List Char) :=
  ((rawWords.filter (fun w => str_isalpha w && w.length ≤ MAX_WORD_LENGTH)).map pyLower,
   (rawBrown.filter (fun w => str_isalpha w)).map pyLower)

/-- Game mode: `"basic"` (single word) or `"intermediate"` (phrase). -/
inductive Mode where
  | basic
  | intermediate
deriving DecidableEq, Repr

/-- Error raised when a candidate pool is empty (CPython's `IndexError`
from `random.choice` on an empty sequence; the spec's
`NoCandidatesAvailable`). -/
inductive SelErr where
  | NoCandidatesAvailable
deriving DecidableEq, Repr

/-- `random.choice(seq)` with the random draw supplied as an index `i`
(reduced modulo the length); fails exactly on the empty pool. -/
def pyChoice (pool : List (List Char)) (i : Nat) : Except SelErr (List Char) :=
  if h : pool.length = 0 then .error .NoCandidatesAvailable
  else .ok (pool.get ⟨i % pool.length, Nat.mod_lt _ (Nat.pos_of_ne_zero h)⟩)

/-- `" ".join(tokens)`. -/
def joinSpaces : List (List Char) → List Char
  | [] => []
  | [t] => t
  | t :: ts => t ++ ' ' :: joinSpaces ts

/-- `random.randint(3, 5)` with the draw supplied as `k`. -/
def randint_3_5 (k : Nat) : Nat := 3 + k % 3

/-- `HangmanGame._choose_word`: basic mode picks one word from `words`
and lowercases it; intermediate mode joins `randint(3,5)` random
`brown_words` entries with single spaces and lowercases the result.
`wi` is the word draw, `k` the length draw, `tis` the token draws. -/
def _choose_word (mode : Mode) (words brown_words : List (List Char))
    (wi k : Nat) (tis : List Nat) : Except SelErr (List Char) :=
  match mode with
  | .basic => (pyChoice words wi).map pyLower
  | .intermediate =>
      let phrase_length := randint_3_5 k
      if h : brown_words.length = 0 then .error .NoCandidatesAvailable
      else
        .ok (pyLower (joinSpaces ((List.range phrase_length).map
          (fun j => brown_words.get
            ⟨(tis.getD j 0) % brown_words.length, Nat.mod_lt _ (Nat.pos_of_ne_zero h)⟩))))

/-- `HangmanGame._init_display`: placeholder for every alphabetic
character, the character itself otherwise. -/
def _init_display (answer : List Char) : List Char :=
  answer.map (fun c => if c.isAlpha then '_' else c)

/-- `HangmanGame._update_display`: write `letter` at every position
where `answer` holds `letter`, keep the mask elsewhere. -/
def _update_display (answer : List Char) (letter : Char) (mask : List Char) :
    List Char :=
  match answer, mask with
  | a :: as, m :: ms =>
      (if a = letter then letter else m) :: _update_display as letter ms
  | _, _ => mask

/-- The mutable state of a `HangmanGame` session. -/
structure GameState where
  answer : List Char
  lives : Int
  guessed_letters : List Char
  display_word : List Char
deriving DecidableEq, Repr

/-- `HangmanGame.__init__` after the answer has been chosen. -/
def initGame (max_lives : Int) (answer : List Char) : GameState :=
  { answer := answer
    lives := max_lives
    guessed_letters := []
    display_word := _init_display answer }

/-- Session construction (`__init__`): choose the answer, then build the
state; fails before any play when the pool is empty. -/
def mkSession (max_lives : Int) (mode : Mode) (words brown_words : List (List Char))
    (wi k : Nat) (tis : List Nat) : Except SelErr GameState :=
  (_choose_word mode words brown_words wi k tis).map (initGame max_lives)

/-- `HangmanGame.is_won`: no placeholder left. -/
def is_won (st : GameState) : Bool := !st.display_word.contains '_'

/-- `HangmanGame.is_lost`: lives exhausted. -/
def is_lost (st : GameState) : Bool := st.lives ≤ 0

/-- One committed result of `timed_input`: `none` on timeout, otherwise
the entered line already stripped of surrounding whitespace (the reader
returns `line.strip()`). -/
inductive Input where
  | timeout
  | line (s : List Char)
deriving DecidableEq, Repr

/-- The per-iteration outcome the loop prints feedback for. -/
inductive Outcome where
  | timedOut
  | invalidInput
  | alreadyGuessed
  | correct
  | incorrect
deriving DecidableEq, Repr

/-- The single guessed character of a committed valid line (the line
lowercased; by validity it has exactly one character). -/
def theGuess (s : List Char) : Char := (pyLower s).headD ' '

/-- One iteration of the body of `HangmanGame.play`'s while loop,
given the (stripped) input: mirrors lines 165-189 of the source.
Note `if not guess:` treats an empty committed line like a timeout. -/
def stepO (st : GameState) (inp : Input) : GameState × Outcome :=
  match inp with
  | .timeout => ({ st with lives := st.lives - 1 }, .timedOut)
  | .line s =>
      if s = [] then ({ st with lives := st.lives - 1 }, .timedOut)
      else
        let guess := pyLower s
        if guess.length ≠ 1 ∨ str_isalpha guess = false then (st, .invalidInput)
        else
          let g := theGuess s
          if g ∈ st.guessed_letters then
            ({ st with lives := st.lives - 1 }, .alreadyGuessed)
          else
            let st' := { st with guessed_letters := g :: st.guessed_letters }
            if g ∈ st.answer then
              ({ st' with display_word := _update_display st.answer g st.display_word },
               .correct)
            else
              ({ st' with lives := st.lives - 1 }, .incorrect)

/-- The state part of one loop iteration. -/
def step (st : GameState) (inp : Input) : GameState := (stepO st inp).1

/-- The while loop of `HangmanGame.play`, driven by a list of inputs:
stops as soon as the session is lost or won (the loop guard). -/
def runLoop (st : GameState) : List Input → GameState
  | [] => st
  | i :: is => if is_lost st || is_won st then st else runLoop (step st i) is

/-- The mask determined by an answer and a set of guessed letters:
the real character wherever it is non-alphabetic or guessed, `'_'`
otherwise. -/
def maskOf (answer : List Char) (guessed : List Char) : List Char :=
  answer.map (fun c => if c.isAlpha = false ∨ c ∈ guessed then c else '_')

/-- The reveal-mask invariant of a session state. -/
def maskInv (st : GameState) : Prop :=
  st.display_word = maskOf st.answer st.guessed_letters

instance (st : GameState) : Decidable (maskInv st) := by
  unfold maskInv; infer_instance

/-- Python's whitespace `str.split()`: split on runs of whitespace,
discarding empty fragments. -/
def pySplitAux : List Char → List Char → List (List Char)
  | [], acc => if acc.isEmpty then [] else [acc.reverse]
  | c :: cs, acc =>
      if c.isWhitespace then
        if acc.isEmpty then pySplitAux cs [] else acc.reverse :: pySplitAux cs []
      else pySplitAux cs (c :: acc)

/-- Python `s.split()` with no separator argument. -/
def pySplit (s : List Char) : List (List Char) := pySplitAux s []

/-! ### Character-level facts about `Char.toLower`, `Char.isAlpha`,
`Char.isWhitespace` (basic latin range) -/

theorem uint32_le_iff (a b : UInt32) : a ≤ b ↔ a.toNat ≤ b.toNat := by
  simp [UInt32.le_def, BitVec.le_def, UInt32.toNat]

theorem char_toNat_ofNat_of_lt (n : Nat) (h : n < 0xd800) : (Char.ofNat n).toNat = n := by
  have hv : n.isValidChar := Or.inl h
  simp [Char.ofNat, hv, Char.ofNatAux, Char.toNat, UInt32.toNat, BitVec.toNat_ofNatLt]

theorem toLower_toLower (c : Char) : c.toLower.toLower = c.toLower := by
  unfold Char.toLower
  by_cases h : 65 ≤ c.toNat ∧ c.toNat ≤ 90
  · have hv : (Char.ofNat (c.toNat + 32)).toNat = c.toNat + 32 := by
      apply char_toNat_ofNat_of_lt; omega
    simp only [h, and_self, if_pos, hv]
    rw [if_neg]; omega
  · simp [h]

theorem isAlpha_iff_toNat (c : Char) : c.isAlpha = true ↔
    (65 ≤ c.toNat ∧ c.toNat ≤ 90) ∨ (97 ≤ c.toNat ∧ c.toNat ≤ 122) := by
  simp only [Char.isAlpha, Char.isUpper, Char.isLower, Bool.or_eq_true,
    Bool.and_eq_true, decide_eq_true_eq, uint32_le_iff]
  norm_num [UInt32.toNat_ofNat, UInt32.size, Char.toNat]

theorem isAlpha_toLower (c : Char) : c.toLower.isAlpha = c.isAlpha := by
  unfold Char.toLower
  by_cases h : 65 ≤ c.toNat ∧ c.toNat ≤ 90
  · have hv : (Char.ofNat (c.toNat + 32)).toNat = c.toNat + 32 := by
      apply char_toNat_ofNat_of_lt; omega
    simp only [h, and_self, if_pos]
    rw [Bool.eq_iff_iff, isAlpha_iff_toNat, isAlpha_iff_toNat, hv]
    omega
  · simp [h]

theorem isWhitespace_iff_toNat (c : Char) : c.isWhitespace = true ↔
    (c.toNat = 32 ∨ c.toNat = 9 ∨ c.toNat = 13 ∨ c.toNat = 10) := by
  simp [Char.isWhitespace, Char.ext_iff, UInt32.ext_iff, BitVec.toNat_eq,
    Char.toNat, UInt32.toNat]
  omega

theorem isWhitespace_eq_false_of_isAlpha (c : Char) (h : c.isAlpha = true) :
    c.isWhitespace = false := by
  rw [isAlpha_iff_toNat] at h
  rw [Bool.eq_false_iff]
  intro hw
  rw [isWhitespace_iff_toNat] at hw
  omega

/-! ### Facts about `pyLower` -/

theorem pyLower_idem (s : List Char) : pyLower (pyLower s) = pyLower s := by
  simp [pyLower, Function.comp, toLower_toLower]

theorem pyLower_length (s : List Char) : (pyLower s).length = s.length := by
  simp [pyLower]

theorem str_isalpha_pyLower (s : List Char) :
    str_isalpha (pyLower s) = str_isalpha s := by
  have ha : s.all (Char.isAlpha ∘ Char.toLower) = s.all Char.isAlpha := by
    induction s with
    | nil => rfl
    | cons c cs ih => simp [List.all_cons, ih, Function.comp, isAlpha_toLower]
  have he : (List.map Char.toLower s).isEmpty = s.isEmpty := by
    cases s <;> rfl
  simp only [str_isalpha, pyLower, List.all_map, he, ha]

/-! ### Facts about the reveal mask -/

theorem maskOf_length (answer guessed : List Char) :
    (maskOf answer guessed).length = answer.length := by
  simp [maskOf]

theorem update_display_maskOf (answer guessed : List Char) (c : Char) :
    _update_display answer c (maskOf answer guessed) = maskOf answer (c :: guessed) := by
  induction answer with
  | nil => rfl
  | cons a as ih =>
      simp only [maskOf, List.map_cons, _update_display]
      rw [show (List.map (fun c => if c.isAlpha = false ∨ c ∈ guessed
            then c else '_') as) = maskOf as guessed from rfl, ih]
      by_cases hac : a = c
      · subst hac
        simp [maskOf]
      · simp only [if_neg hac, maskOf]
        congr 1
        simp [hac]

theorem maskOf_cons_not_mem (answer guessed : List Char) (c : Char)
    (h : c ∉ answer) : maskOf answer (c :: guessed) = maskOf answer guessed := by
  induction answer with
  | nil => rfl
  | cons a as ih =>
      simp only [List.mem_cons, not_or] at h
      simp only [maskOf, List.map_cons] at *
      rw [ih h.2]
      have hac : a ≠ c := fun hec => h.1 hec.symm
      simp [List.mem_cons, hac]

theorem maskInv_initGame (max_lives : Int) (answer : List Char) :
    maskInv (initGame max_lives answer) := by
  simp only [maskInv, initGame, _init_display, maskOf]
  congr 1
  funext c
  by_cases h : c.isAlpha <;> simp [h]

theorem maskInv_step (st : GameState) (inp : Input) (h : maskInv st) :
    maskInv (step st inp) := by
  unfold maskInv at *
  cases inp with
  | timeout => simpa [step, stepO]
  | line s =>
      simp only [step, stepO]
      by_cases hs : s = []
      · simpa [if_pos hs]
      · rw [if_neg hs]
        by_cases hv : (pyLower s).length ≠ 1 ∨ str_isalpha (pyLower s) = false
        · simpa [if_pos hv]
        · rw [if_neg hv]
          by_cases hrep : theGuess s ∈ st.guessed_letters
          · simpa [if_pos hrep]
          · rw [if_neg hrep]
            by_cases hmem : theGuess s ∈ st.answer
            · rw [if_pos hmem]
              show _update_display st.answer _ st.display_word = _
              rw [h, update_display_maskOf]
            · rw [if_neg hmem]
              show st.display_word = _
              rw [h, maskOf_cons_not_mem _ _ _ hmem]

/-- C3: for every reachable session state, the reveal mask holds the
answer's real character at position `i` iff that character is
non-alphabetic or has been guessed, and the placeholder `'_'` otherwise;
the mask has the answer's length; the invariant holds at initialization
and is preserved by every loop step (guess, repeat, invalid, timeout). -/
theorem C3_mask_invariant :
    (∀ (max_lives : Int) (answer : List Char), maskInv (initGame max_lives answer)) ∧
    (∀ (st : GameState) (inp : Input), maskInv st → maskInv (step st inp)) ∧
    (∀ st : GameState, maskInv st →
      st.display_word.length = st.answer.length ∧
      ∀ i : Nat, i < st.answer.length →
        ((st.display_word.getD i ' ' = st.answer.getD i ' ') ↔
          ((st.answer.getD i ' ').isAlpha = false ∨
            st.answer.getD i ' ' ∈ st.guessed_letters)) ∧
        ((st.answer.getD i ' ').isAlpha = true →
          st.answer.getD i ' ' ∉ st.guessed_letters →
          st.display_word.getD i ' ' = '_')) := by
  refine ⟨maskInv_initGame, maskInv_step, ?_⟩
  intro st h
  refine ⟨by rw [h, maskOf_length], ?_⟩
  intro i hi
  have hai : st.answer.getD i ' ' = st.answer[i] := by
    simp [List.getD_eq_getElem?_getD, List.getElem?_eq_getElem hi]
  have hdi : st.display_word.getD i ' ' =
      (if (st.answer[i]).isAlpha = false ∨ st.answer[i] ∈ st.guessed_letters
        then st.answer[i] else '_') := by
    rw [h]
    simp [maskOf, List.getD_eq_getElem?_getD, List.getElem?_map,
      List.getElem?_eq_getElem hi]
  rw [hai, hdi]
  by_cases hc : (st.answer[i]).isAlpha = false ∨ st.answer[i] ∈ st.guessed_letters
  · rw [if_pos hc]
    exact ⟨⟨fun _ => hc, fun _ => rfl⟩,
      fun ha hm => absurd hc (by simp [ha, hm])⟩
  · rw [if_neg hc]
    push_neg at hc
    constructor
    · constructor
      · intro he
        exfalso
        have : ('_' : Char).isAlpha = false := by decide
        rw [← he] at hc
        exact absurd this (by simpa using hc.1)
      · intro hor
        exact absurd hor (by push_neg; exact hc)
    · intro _ _; rfl

/-- Witness for C3 at concrete inputs. -/
theorem C3_mask_invariant_witness :
    maskInv (step (initGame 3 ['a', 'b']) (Input.line ['a'])) ∧
    (initGame 3 ['a', ' ', 'b']).display_word.length =
      (initGame 3 ['a', ' ', 'b']).answer.length :=
  ⟨C3_mask_invariant.2.1 (initGame 3 ['a', 'b']) (Input.line ['a']) (by decide),
   (C3_mask_invariant.2.2 (initGame 3 ['a', ' ', 'b']) (by decide)).1⟩

/-- Evaluating one loop iteration on a valid single-letter line. -/
theorem stepO_single (st : GameState) (c : Char) (halpha : c.isAlpha = true)
    (hlow : c.toLower = c) :
    stepO st (.line [c]) =
      if c ∈ st.guessed_letters then
        ({ st with lives := st.lives - 1 }, .alreadyGuessed)
      else if c ∈ st.answer then
        ({ st with
           guessed_letters := c :: st.guessed_letters,
           display_word := _update_display st.answer c st.display_word }, .correct)
      else
        ({ st with
           guessed_letters := c :: st.guessed_letters,
           lives := st.lives - 1 }, .incorrect) := by
  have h1 : ([c] : List Char) ≠ [] := by simp
  have hpl : pyLower [c] = [c] := by simp [pyLower, hlow]
  have hg : theGuess [c] = c := by simp [theGuess, hpl]
  have hcond : ¬ ((pyLower [c]).length ≠ 1 ∨ str_isalpha (pyLower [c]) = false) := by
    rw [hpl]
    simp [str_isalpha, halpha]
  simp only [stepO, if_neg h1, if_neg hcond, hg]

/-- How `_update_display` acts position-wise when the mask has the
answer's length. -/
theorem update_display_getD (answer : List Char) (c : Char) :
    ∀ (mask : List Char) (i : Nat), mask.length = answer.length →
      i < answer.length →
      (_update_display answer c mask).getD i ' ' =
        if answer.getD i ' ' = c then c else mask.getD i ' ' := by
  induction answer with
  | nil => intro mask i _ hi; exact absurd hi (by simp)
  | cons a as ih =>
      intro mask i hl hi
      cases mask with
      | nil => exact absurd hl (by simp)
      | cons m ms =>
          simp only [_update_display]
          cases i with
          | zero => by_cases hac : a = c <;> simp [hac]
          | succ j =>
              simp only [List.getD_cons_succ]
              exact ih ms j (by simpa using hl) (by simpa using hi)

/-- C4: guessing a fresh letter that occurs in the answer yields the
`Correct` outcome, leaves lives unchanged, records the letter, reveals
every occurrence of the letter in the mask, and keeps the other mask
positions unchanged. -/
theorem C4_correct_guess (st : GameState) (c : Char)
    (hl : st.display_word.length = st.answer.length)
    (halpha : c.isAlpha = true) (hlow : c.toLower = c)
    (hnew : c ∉ st.guessed_letters) (hmem : c ∈ st.answer) :
    (stepO st (.line [c])).2 = .correct ∧
    (stepO st (.line [c])).1.lives = st.lives ∧
    (stepO st (.line [c])).1.guessed_letters = c :: st.guessed_letters ∧
    (∀ i : Nat, i < st.answer.length → st.answer.getD i ' ' = c →
      (stepO st (.line [c])).1.display_word.getD i ' ' = c) ∧
    (∀ i : Nat, i < st.answer.length → st.answer.getD i ' ' ≠ c →
      (stepO st (.line [c])).1.display_word.getD i ' ' =
        st.display_word.getD i ' ') := by
  rw [stepO_single st c halpha hlow, if_neg hnew, if_pos hmem]
  refine ⟨rfl, rfl, rfl, ?_, ?_⟩
  · intro i hi hc
    rw [update_display_getD st.answer c st.display_word i hl hi, if_pos hc]
  · intro i hi hc
    rw [update_display_getD st.answer c st.display_word i hl hi, if_neg hc]

/-- Witness for C4: answer "apple", fresh guess 'p'. -/
theorem C4_correct_guess_witness :
    (stepO (initGame 6 ['a', 'p', 'p', 'l', 'e']) (.line ['p'])).2 = .correct ∧
    (stepO (initGame 6 ['a', 'p', 'p', 'l', 'e']) (.line ['p'])).1.lives =
      (initGame 6 ['a', 'p', 'p', 'l', 'e']).lives := by
  have h := C4_correct_guess (initGame 6 ['a', 'p', 'p', 'l', 'e']) 'p'
    (by decide) (by decide) (by decide) (by decide) (by decide)
  exact ⟨h.1, h.2.1⟩

/-- C5: guessing a letter already in the guessed set costs exactly one
life and changes neither the mask nor the guessed set (nor the answer). -/
theorem C5_repeat_guess (st : GameState) (c : Char)
    (halpha : c.isAlpha = true) (hlow : c.toLower = c)
    (hmem : c ∈ st.guessed_letters) :
    stepO st (.line [c]) = ({ st with lives := st.lives - 1 }, .alreadyGuessed) := by
  rw [stepO_single st c halpha hlow, if_pos hmem]

/-- Witness for C5 at a concrete state. -/
theorem C5_repeat_guess_witness :
    stepO { answer := ['a', 'p', 'p', 'l', 'e'], lives := 6,
            guessed_letters := ['p'],
            display_word := ['_', 'p', 'p', '_', '_'] } (.line ['p']) =
      ({ answer := ['a', 'p', 'p', 'l', 'e'], lives := 5,
         guessed_letters := ['p'],
         display_word := ['_', 'p', 'p', '_', '_'] }, .alreadyGuessed) :=
  C5_repeat_guess
    { answer := ['a', 'p', 'p', 'l', 'e'], lives := 6,
      guessed_letters := ['p'], display_word := ['_', 'p', 'p', '_', '_'] }
    'p' (by decide) (by decide) (by decide)

/-- C6: a timeout decrements lives by exactly 1 and changes nothing
else: the answer, guessed set and mask are untouched. -/
theorem C6_timeout (st : GameState) :
    stepO st .timeout = ({ st with lives := st.lives - 1 }, .timedOut) := rfl

/-- C1 counterexample: a committed empty line is caught by the
`if not guess:` branch of the loop and costs a life, so the claim that
every invalid committed line (including the empty line) leaves Lives
unchanged is false at this input. -/
theorem C1_counterexample :
    (step (initGame 6 ['a', 'b']) (Input.line [])).lives ≠
      (initGame 6 ['a', 'b']).lives := by decide

/-- C1 amended: a committed non-empty line whose lowercased text is not
exactly one alphabetic character leaves the whole state unchanged (no
life lost, invalid-input outcome); a committed empty line instead falls
into the timeout branch and costs one life. -/
theorem C1_invalid_input :
    (∀ (st : GameState) (s : List Char), s ≠ [] →
      ((pyLower s).length ≠ 1 ∨ str_isalpha (pyLower s) = false) →
      stepO st (.line s) = (st, .invalidInput)) ∧
    (∀ st : GameState,
      stepO st (.line []) = ({ st with lives := st.lives - 1 }, .timedOut)) := by
  constructor
  · intro st s hne hinv
    simp only [stepO, if_neg hne, if_pos hinv]
  · intro st
    simp [stepO]

/-- Witness for C1 (amended) on a concrete two-character line. -/
theorem C1_invalid_input_witness :
    stepO (initGame 6 ['a', 'b']) (.line ['a', 'b']) =
      (initGame 6 ['a', 'b'], .invalidInput) :=
  C1_invalid_input.1 (initGame 6 ['a', 'b']) ['a', 'b'] (by decide) (by decide)

/-- Every loop iteration lowers lives by at most one and never raises
them. -/
theorem step_lives_bounds (st : GameState) (inp : Input) :
    st.lives - 1 ≤ (step st inp).lives ∧ (step st inp).lives ≤ st.lives := by
  cases inp with
  | timeout =>
      simp only [step, stepO]
      constructor <;> simp
  | line s =>
      simp only [step, stepO]
      by_cases hs : s = []
      · rw [if_pos hs]; constructor <;> simp
      · rw [if_neg hs]
        by_cases hv : (pyLower s).length ≠ 1 ∨ str_isalpha (pyLower s) = false
        · rw [if_pos hv]; constructor <;> simp
        · rw [if_neg hv]
          by_cases hrep : theGuess s ∈ st.guessed_letters
          · rw [if_pos hrep]; constructor <;> simp
          · rw [if_neg hrep]
            by_cases hmem : theGuess s ∈ st.answer
            · rw [if_pos hmem]; constructor <;> simp
            · rw [if_neg hmem]; constructor <;> simp

theorem runLoop_lives_le (st : GameState) (inputs : List Input) :
    (runLoop st inputs).lives ≤ st.lives := by
  induction inputs generalizing st with
  | nil => simp [runLoop]
  | cons i is ih =>
      simp only [runLoop]
      split
      · exact le_refl _
      · exact le_trans (ih (step st i)) (step_lives_bounds st i).2

theorem runLoop_lives_nonneg (st : GameState) (inputs : List Input)
    (h : 0 ≤ st.lives) : 0 ≤ (runLoop st inputs).lives := by
  induction inputs generalizing st with
  | nil => simpa [runLoop]
  | cons i is ih =>
      simp only [runLoop]
      split
      · exact h
      · next hguard =>
          apply ih
          have hnl : ¬ is_lost st = true := fun hl => hguard (by simp [hl])
          have hpos : 0 < st.lives := by
            simp only [is_lost, decide_eq_true_eq, not_le] at hnl
            exact hnl
          have hb := (step_lives_bounds st i).1
          omega

/-- C7: lives start at the configured maximum, never increase along the
game loop, and never drop below 0 in any reachable state of the loop. -/
theorem C7_lives :
    (∀ (max_lives : Int) (answer : List Char),
      (initGame max_lives answer).lives = max_lives) ∧
    (∀ (st : GameState) (inputs : List Input),
      (runLoop st inputs).lives ≤ st.lives) ∧
    (∀ (st : GameState) (inputs : List Input), 0 ≤ st.lives →
      0 ≤ (runLoop st inputs).lives) :=
  ⟨fun _ _ => rfl, runLoop_lives_le, runLoop_lives_nonneg⟩

/-- Witness for C7: a one-life game hit by two timeouts stays at 0. -/
theorem C7_lives_witness :
    0 ≤ (runLoop (initGame 1 ['a']) [Input.timeout, Input.timeout]).lives :=
  C7_lives.2.2 (initGame 1 ['a']) [Input.timeout, Input.timeout] (by decide)

/-- C10: the reveal-update operation `_update_display` is idempotent and
commutative, so the final mask depends only on the set of correctly
guessed letters, not on the order of the guesses. -/
theorem C10_update_display_idem_comm :
    (∀ (answer mask : List Char) (a : Char),
      _update_display answer a (_update_display answer a mask) =
        _update_display answer a mask) ∧
    (∀ (answer mask : List Char) (a b : Char),
      _update_display answer a (_update_display answer b mask) =
        _update_display answer b (_update_display answer a mask)) := by
  constructor
  · intro answer mask a
    induction answer generalizing mask with
    | nil => rfl
    | cons x xs ih =>
        cases mask with
        | nil => rfl
        | cons m ms =>
            simp only [_update_display]
            rw [ih]
            by_cases hxa : x = a <;> simp [hxa]
  · intro answer mask a b
    induction answer generalizing mask with
    | nil => rfl
    | cons x xs ih =>
        cases mask with
        | nil => rfl
        | cons m ms =>
            simp only [_update_display]
            rw [ih]
            by_cases hxa : x = a <;> by_cases hxb : x = b
        <;> simp_all

/-- C2: with an empty candidate pool (word pool in basic mode, phrase
token pool in intermediate mode), session construction fails with
`NoCandidatesAvailable` before any play begins. -/
theorem C2_no_candidates :
    (∀ (max_lives : Int) (brown_words : List (List Char)) (wi k : Nat)
      (tis : List Nat),
      mkSession max_lives .basic [] brown_words wi k tis =
        .error .NoCandidatesAvailable) ∧
    (∀ (max_lives : Int) (words : List (List Char)) (wi k : Nat)
      (tis : List Nat),
      mkSession max_lives .intermediate words [] wi k tis =
        .error .NoCandidatesAvailable) := by
  constructor <;> intro max_lives pool wi k tis <;> rfl

/-- Members of the filtered word pool are lowercase fixed points of
`pyLower`, alphabetic and at most `MAX_WORD_LENGTH` long. -/
theorem mem_load_words (rawW rawB : List (List Char)) (w : List Char)
    (h : w ∈ (load_word_lists rawW rawB).1) :
    pyLower w = w ∧ w.length ≤ MAX_WORD_LENGTH ∧ str_isalpha w = true := by
  simp only [load_word_lists, List.mem_map, List.mem_filter] at h
  obtain ⟨u, ⟨_, hcond⟩, rfl⟩ := h
  simp only [Bool.and_eq_true, decide_eq_true_eq] at hcond
  refine ⟨pyLower_idem u, ?_, ?_⟩
  · rw [pyLower_length]; exact hcond.2
  · rw [str_isalpha_pyLower]; exact hcond.1

/-- Members of the filtered phrase-token pool are lowercase fixed points
of `pyLower` and alphabetic. -/
theorem mem_load_brown (rawW rawB : List (List Char)) (w : List Char)
    (h : w ∈ (load_word_lists rawW rawB).2) :
    pyLower w = w ∧ str_isalpha w = true := by
  simp only [load_word_lists, List.mem_map, List.mem_filter] at h
  obtain ⟨u, ⟨_, hcond⟩, rfl⟩ := h
  exact ⟨pyLower_idem u, by rw [str_isalpha_pyLower]; exact hcond⟩

/-- C8: in single-word mode over the filtered corpus pool, the chosen
answer is an exact member of the pool, entirely lowercase, and no longer
than `MAX_WORD_LENGTH`. -/
theorem C8_basic_answer (rawW rawB : List (List Char)) (wi k : Nat)
    (tis : List Nat) (hne : (load_word_lists rawW rawB).1 ≠ []) :
    ∃ ans, _choose_word .basic (load_word_lists rawW rawB).1
        (load_word_lists rawW rawB).2 wi k tis = .ok ans ∧
      ans ∈ (load_word_lists rawW rawB).1 ∧ pyLower ans = ans ∧
      ans.length ≤ MAX_WORD_LENGTH := by
  have hlen : (load_word_lists rawW rawB).1.length ≠ 0 := by
    simpa [List.length_eq_zero] using hne
  set W := (load_word_lists rawW rawB).1 with hW
  set w := W.get ⟨wi % W.length, Nat.mod_lt _ (Nat.pos_of_ne_zero hlen)⟩ with hw
  have hmem : w ∈ W := List.get_mem _ _ _
  obtain ⟨hlow, hlen8, _⟩ := mem_load_words rawW rawB w (hW ▸ hmem)
  refine ⟨w, ?_, hmem, hlow, hlen8⟩
  simp only [_choose_word, pyChoice, dif_neg hlen, Except.map, ← hw, hlow]

/-- Accumulating a whitespace-free chunk into the split accumulator. -/
theorem pySplitAux_append_nonws (t : List Char)
    (h : ∀ c ∈ t, c.isWhitespace = false) :
    ∀ (rest acc : List Char),
      pySplitAux (t ++ rest) acc = pySplitAux rest (t.reverse ++ acc) := by
  induction t with
  | nil => intro rest acc; simp
  | cons c cs ih =>
      intro rest acc
      have hc : c.isWhitespace = false := h c (by simp)
      simp only [List.cons_append, pySplitAux, hc, Bool.false_eq_true, if_false,
        List.append_eq]
      rw [ih (fun x hx => h x (by simp [hx])) rest (c :: acc)]
      simp

/-- Splitting the space-join of non-empty whitespace-free tokens gives
back exactly the tokens. -/
theorem pySplit_joinSpaces (toks : List (List Char))
    (h : ∀ t ∈ toks, t ≠ [] ∧ ∀ c ∈ t, c.isWhitespace = false) :
    pySplit (joinSpaces toks) = toks := by
  induction toks with
  | nil => rfl
  | cons t ts ih =>
      obtain ⟨hne, hnws⟩ := h t (by simp)
      have hrevne : t.reverse ≠ [] := by simpa
      cases ts with
      | nil =>
          show pySplitAux (joinSpaces [t]) [] = [t]
          have : joinSpaces [t] = t ++ [] := by simp [joinSpaces]
          rw [this, pySplitAux_append_nonws t hnws [] []]
          simp only [pySplitAux, List.append_nil]
          rw [if_neg (by simpa [List.isEmpty_iff] using hrevne)]
          simp
      | cons u us =>
          show pySplitAux (joinSpaces (t :: u :: us)) [] = t :: u :: us
          have : joinSpaces (t :: u :: us) = t ++ ' ' :: joinSpaces (u :: us) := rfl
          rw [this, pySplitAux_append_nonws t hnws _ []]
          simp only [List.append_nil, pySplitAux]
          rw [if_pos (by decide), if_neg (by simpa [List.isEmpty_iff] using hrevne)]
          rw [List.reverse_reverse]
          congr 1
          exact ih (fun x hx => h x (by simp [hx]))

/-- Lowercasing a space-join of lowercase tokens changes nothing. -/
theorem pyLower_joinSpaces (toks : List (List Char))
    (h : ∀ t ∈ toks, pyLower t = t) :
    pyLower (joinSpaces toks) = joinSpaces toks := by
  induction toks with
  | nil => rfl
  | cons t ts ih =>
      cases ts with
      | nil => exact h t (by simp)
      | cons u us =>
          show pyLower (t ++ ' ' :: joinSpaces (u :: us)) = _
          simp only [pyLower, List.map_append, List.map_cons]
          rw [show Char.toLower ' ' = ' ' from rfl,
            show List.map Char.toLower t = t from h t (by simp),
            show List.map Char.toLower (joinSpaces (u :: us)) = joinSpaces (u :: us)
              from ih (fun x hx => h x (by simp [hx]))]
          rfl

/-- C9: in phrase mode over the filtered corpus pools, the chosen answer
splits on whitespace into between 3 and 5 tokens, each an exact member
of the phrase-token pool. -/
theorem C9_phrase_answer (rawW rawB : List (List Char)) (wi k : Nat)
    (tis : List Nat) (hne : (load_word_lists rawW rawB).2 ≠ []) :
    ∃ ans, _choose_word .intermediate (load_word_lists rawW rawB).1
        (load_word_lists rawW rawB).2 wi k tis = .ok ans ∧
      3 ≤ (pySplit ans).length ∧ (pySplit ans).length ≤ 5 ∧
      ∀ t ∈ pySplit ans, t ∈ (load_word_lists rawW rawB).2 := by
  have hlen : (load_word_lists rawW rawB).2.length ≠ 0 := by
    simpa [List.length_eq_zero] using hne
  set B := (load_word_lists rawW rawB).2 with hB
  set toks := (List.range (randint_3_5 k)).map
    (fun j => B.get ⟨(tis.getD j 0) % B.length, Nat.mod_lt _ (Nat.pos_of_ne_zero hlen)⟩)
    with htoks
  have htmem : ∀ t ∈ toks, t ∈ B := by
    intro t ht
    rw [htoks] at ht
    obtain ⟨j, _, rfl⟩ := List.mem_map.mp ht
    exact List.get_mem _ _ _
  have htlow : ∀ t ∈ toks, pyLower t = t :=
    fun t ht => (mem_load_brown rawW rawB t (hB ▸ htmem t ht)).1
  have htok : ∀ t ∈ toks, t ≠ [] ∧ ∀ c ∈ t, c.isWhitespace = false := by
    intro t ht
    have halpha := (mem_load_brown rawW rawB t (hB ▸ htmem t ht)).2
    simp only [str_isalpha, Bool.and_eq_true, Bool.not_eq_true',
      List.isEmpty_eq_false, List.all_eq_true] at halpha
    exact ⟨halpha.1, fun c hc =>
      isWhitespace_eq_false_of_isAlpha c (halpha.2 c hc)⟩
  refine ⟨joinSpaces toks, ?_, ?_, ?_, ?_⟩
  · simp only [_choose_word, dif_neg hlen, ← hB, ← htoks]
    rw [pyLower_joinSpaces toks htlow]
  · rw [pySplit_joinSpaces toks htok, htoks]
    simp [randint_3_5]
  · rw [pySplit_joinSpaces toks htok, htoks]
    simp only [List.length_map, List.length_range, randint_3_5]
    omega
  · rw [pySplit_joinSpaces toks htok]
    exact htmem

/-- Witness for C8 on a concrete two-word pool. -/
theorem C8_basic_answer_witness :
    ∃ ans, _choose_word .basic (load_word_lists [['a', 'b'], ['c']] []).1
        (load_word_lists [['a', 'b'], ['c']] []).2 1 0 [] = .ok ans ∧
      ans ∈ (load_word_lists [['a', 'b'], ['c']] []).1 ∧ pyLower ans = ans ∧
      ans.length ≤ MAX_WORD_LENGTH :=
  C8_basic_answer [['a', 'b'], ['c']] [] 1 0 [] (by decide)

/-- Witness for C9 on a concrete one-token pool. -/
theorem C9_phrase_answer_witness :
    ∃ ans, _choose_word .intermediate (load_word_lists [] [['d', 'o', 'g']]).1
        (load_word_lists [] [['d', 'o', 'g']]).2 0 1 [0, 0, 0, 0] = .ok ans ∧
      3 ≤ (pySplit ans).length ∧ (pySplit ans).length ≤ 5 ∧
      ∀ t ∈ pySplit ans, t ∈ (load_word_lists [] [['d', 'o', 'g']]).2 :=
  C9_phrase_answer [] [['d', 'o', 'g']] 0 1 [0, 0, 0, 0] (by decide)

end Hangman
